import Mathlib

/-!
Shallow embedding of the tabulation core of the arrow-voting-simulator
repository: the four voting-rule engines of `src/uvpd/rules.py`
(Plurality, Borda, Condorcet, Instant-Runoff) and the progressive
tabulator of `src/uvpd/engine.py`, together with theorems settling the
specification claims about them.

Conventions of the embedding:
* A ballot (one row of the numpy `PreferenceArray`) is a `List Nat`;
  in-domain rows are permutations of `[0, 1, 2, 3, 4]` (`IsPermBallot`).
* A ballot set is a `List (List Nat)` (the rows, in order).
* The heterogeneous python `aux` dictionary `Dict[str, object]` is an
  association list `List (String × AuxVal)`.
* numpy integers are modelled as `Nat` (all tallies are nonnegative);
  the single subtraction in the source (`n - wins[a, b]`) is performed
  in `Int`, matching python's signed arithmetic.
* The `while True` loop of IRV is modelled with explicit fuel, and a
  python `ValueError` (min of an empty sequence) as `none`; theorems
  prove both unreachable.
-/

namespace UVPD

/-- Auxiliary tally value stored in a rule result; models the dynamically
typed values of the python `aux` dictionary. -/
inductive AuxVal where
  | nat (n : Nat)
  | bool (b : Bool)
  | natList (xs : List Nat)
  | natMatrix (m : List (List Nat))
deriving DecidableEq, Repr

/-- Result of one rule engine invocation; models the frozen dataclass
`RuleResult(winner, aux)` of rules.py. -/
structure RuleResult where
  winner : Option Nat
  aux : List (String × AuxVal)
deriving DecidableEq, Repr

/-- A row is in-domain when it is a permutation of the five candidates,
exactly the invariant stated for `PreferenceArray` rows. -/
def IsPermBallot (row : List Nat) : Prop := row.Perm [0, 1, 2, 3, 4]

instance (row : List Nat) : Decidable (IsPermBallot row) := by
  unfold IsPermBallot; infer_instance

/-- A ballot set is in-domain when every row is a permutation ballot. -/
def InDomain (preferences : List (List Nat)) : Prop :=
  ∀ row ∈ preferences, IsPermBallot row

instance (preferences : List (List Nat)) : Decidable (InDomain preferences) := by
  unfold InDomain; infer_instance

/-- Per-value occurrence counts over candidates `0..4`; models
`np.bincount(xs, minlength=5)` on inputs whose values are below 5. -/
def bincount5 (xs : List Nat) : List Nat :=
  (List.range 5).map (fun c => xs.count c)

/-- Maximum entry of a list of naturals (`0` on the empty list); models
`.max()` on the always-length-5 count/score vectors. -/
def listMax (xs : List Nat) : Nat := xs.foldr max 0

/-- Deterministic tie-break shared by Plurality, Borda and IRV
elimination; models `_alphabetical_tiebreak` (python `min`), with `none`
standing for the `ValueError` python would raise on an empty sequence. -/
def alphabetical_tiebreak : List Nat → Option Nat
  | [] => none
  | x :: xs => some (xs.foldl min x)

namespace PluralityRule

/-- Models `PluralityRule.compute`: tally first choices (row position 0),
take the maximum, tie-break alphabetically. -/
def compute (preferences : List (List Nat)) : RuleResult :=
  let first_choices := preferences.map (fun row => row.headD 0)
  let counts := bincount5 first_choices
  let max_count := listMax counts
  let tied := (List.range 5).filter (fun c => counts.getD c 0 == max_count)
  { winner := alphabetical_tiebreak tied,
    aux := [("counts", AuxVal.natList counts),
            ("tie", AuxVal.bool (decide (1 < tied.length)))] }

end PluralityRule

/-- Points awarded by ballot position; models `position_points = [4,3,2,1,0]`. -/
def position_points : List Nat := [4, 3, 2, 1, 0]

namespace BordaRule

/-- Models the score-accumulation loop of `BordaRule.compute`: for each
position, bincount the candidates at that position and add
`counts * points` elementwise into the score vector. -/
def scoresOf (preferences : List (List Nat)) : List Nat :=
  (List.range 5).foldl
    (fun scores pos =>
      List.zipWith (fun s c => s + c * position_points.getD pos 0) scores
        (bincount5 (preferences.map (fun row => row.getD pos 0))))
    (List.replicate 5 0)

/-- Models `BordaRule.compute`. -/
def compute (preferences : List (List Nat)) : RuleResult :=
  let n := preferences.length
  let scores := scoresOf preferences
  let max_score := listMax scores
  let tied := (List.range 5).filter (fun c => scores.getD c 0 == max_score)
  let total_points := scores.sum
  { winner := alphabetical_tiebreak tied,
    aux := [("scores", AuxVal.natList scores),
            ("total_points", AuxVal.nat total_points),
            ("expected_total_points", AuxVal.nat (n * 10)),
            ("tie", AuxVal.bool (decide (1 < tied.length)))] }

end BordaRule

/-- Position of candidate `c` in a ballot row; models the construction
`ranks[row, cand] = pos` of `CondorcetRule.compute` — on a permutation
row each candidate appears exactly once, so the position where the scan
writes `pos` is the (first) index of `c` in the row. -/
def rankIn (row : List Nat) (c : Nat) : Nat := row.findIdx (fun x => x == c)

namespace CondorcetRule

/-- Pairwise entry `wins[a, b]`: number of rows ranking `a` strictly
above `b`; the diagonal stays 0 exactly as the `a == b: continue` skip
leaves the zero-initialised array. -/
def winsEntry (preferences : List (List Nat)) (a b : Nat) : Nat :=
  if a = b then 0
  else preferences.countP (fun row => decide (rankIn row a < rankIn row b))

/-- The full 5×5 pairwise matrix stored in `aux["wins"]`. -/
def winsMatrix (preferences : List (List Nat)) : List (List Nat) :=
  (List.range 5).map (fun a => (List.range 5).map (fun b => winsEntry preferences a b))

/-- Candidates passing the source's winner test
`all(wins[a, b] > (n - wins[a, b]) for b in range(5) if b != a)`. -/
def beats_all (preferences : List (List Nat)) : List Nat :=
  let n := preferences.length
  (List.range 5).filter (fun a =>
    (List.range 5).all (fun b =>
      decide (b = a) ||
        decide ((winsEntry preferences a b : Int) > (n : Int) - (winsEntry preferences a b : Int))))

/-- Models `CondorcetRule.compute`. -/
def compute (preferences : List (List Nat)) : RuleResult :=
  { winner := match beats_all preferences with
      | [a] => some a
      | _ => none,
    aux := [("wins", AuxVal.natMatrix (winsMatrix preferences))] }

end CondorcetRule

/-- A candidate qualifies as Condorcet winner when it strictly wins every
pairwise contest. -/
def Qualifies (preferences : List (List Nat)) (a : Nat) : Prop :=
  a < 5 ∧ ∀ b, b < 5 → b ≠ a →
    CondorcetRule.winsEntry preferences a b > CondorcetRule.winsEntry preferences b a

instance (preferences : List (List Nat)) (a : Nat) : Decidable (Qualifies preferences a) := by
  unfold Qualifies; infer_instance

namespace IRVRule

/-- Number of active candidates, `active.sum()` on the boolean array. -/
def countActive (active : List Bool) : Nat := active.count true

/-- Index of the first maximal entry; models `np.argmax`. -/
def npArgmax (xs : List Nat) : Nat := xs.findIdx (fun x => x == listMax xs)

/-- Per-ballot top choice among the active candidates: for each row, the
first entry whose candidate is still active (rows with every ranked
candidate eliminated contribute nothing); models the inner scan with
`break` over each ballot. -/
def firstChoices (preferences : List (List Nat)) (active : List Bool) : List Nat :=
  preferences.filterMap (fun row => row.find? (fun c => active.getD c false))

/-- Models the `while True` loop of `IRVRule.compute` with explicit fuel.
`none` stands for fuel exhaustion (the loop failing to terminate within
`fuel` iterations) or for the `ValueError` python's `min` would raise on
an empty sequence; both are proven unreachable from the initial state. -/
def loop (preferences : List (List Nat)) :
    Nat → List Bool → List Nat → Option RuleResult
  | 0, _, _ => none
  | fuel + 1, active, elimination_order =>
    let first_choices := firstChoices preferences active
    if first_choices.isEmpty then
      some { winner := none,
             aux := [("elimination_order", AuxVal.natList elimination_order)] }
    else
      let counts := bincount5 first_choices
      let total_active_votes := counts.sum
      if total_active_votes = 0 then
        some { winner := none,
               aux := [("elimination_order", AuxVal.natList elimination_order)] }
      else if listMax counts * 2 > total_active_votes then
        some { winner := some (npArgmax counts),
               aux := [("counts", AuxVal.natList counts),
                       ("elimination_order", AuxVal.natList elimination_order)] }
      else
        let active_cands := (List.range 5).filter (fun c => active.getD c false)
        match active_cands.map (fun c => counts.getD c 0) with
        | [] => none
        | m :: ms =>
          let min_count := ms.foldl min m
          let cands_min := (List.range 5).filter
            (fun c => active.getD c false && counts.getD c 0 == min_count)
          match alphabetical_tiebreak cands_min with
          | none => none
          | some elim =>
            let active2 := active.set elim false
            let elimination_order2 := elimination_order ++ [elim]
            if countActive active2 = 1 then
              some { winner := some (active2.findIdx (fun b => b)),
                     aux := [("counts", AuxVal.natList counts),
                             ("elimination_order", AuxVal.natList elimination_order2)] }
            else
              loop preferences fuel active2 elimination_order2

/-- Models `IRVRule.compute`: run the loop from the all-active state.
Five units of fuel suffice (proven below), so the fuel is an artifact of
the embedding, not of the algorithm. -/
def compute (preferences : List (List Nat)) : Option RuleResult :=
  loop preferences 5 (List.replicate 5 true) []

end IRVRule

/-- Candidate display labels, `CandidateSet().labels`. -/
def labels : List String := ["A", "B", "C", "D", "E"]

/-- One per-step record emitted by the progressive tabulator; models the
dict built in `ProgressiveSimulator._run_single`. The wall-clock
`timestamp` field is outside the model. -/
structure StepRecord where
  run_id : Nat
  step : Nat
  voter_preferences : List (List Nat)
  winners : List (String × Option String)
deriving DecidableEq, Repr

namespace ProgressiveSimulator

/-- Models `ProgressiveSimulator._compute_winners`: apply all four rules
to the accumulated ballot set and render winners as labels (`none` for
an absent winner). Propagates IRV's failure marker. -/
def compute_winners (prefs : List (List Nat)) : Option (List (String × Option String)) :=
  match IRVRule.compute prefs with
  | none => none
  | some ir =>
    some [("plurality", (PluralityRule.compute prefs).winner.map (fun c => labels.getD c "")),
          ("borda", (BordaRule.compute prefs).winner.map (fun c => labels.getD c "")),
          ("condorcet", (CondorcetRule.compute prefs).winner.map (fun c => labels.getD c "")),
          ("irv", ir.winner.map (fun c => labels.getD c ""))]

/-- Models the step loop of `ProgressiveSimulator._run_single`, with the
excluded random sampler abstracted as the list of ballots it yields (one
per step): at step `k` the accumulated ballot set is the first `k`
sampled ballots, and one record is emitted per step. -/
def run_single (run_id : Nat) (sampled : List (List Nat)) : Option (List StepRecord) :=
  (List.range sampled.length).mapM (fun i =>
    let prefs_all := sampled.take (i + 1)
    (compute_winners prefs_all).map (fun w =>
      { run_id := run_id, step := i + 1, voter_preferences := prefs_all, winners := w }))

end ProgressiveSimulator

/-! ### Generic helper lemmas on the tally primitives -/

lemma foldl_min_mem (xs : List Nat) (x : Nat) : xs.foldl min x ∈ x :: xs := by
  induction xs generalizing x with
  | nil => simp [List.foldl]
  | cons y ys ih =>
    have h := ih (min x y)
    rw [List.foldl_cons]
    rcases List.mem_cons.mp h with h1 | h1
    · rcases min_choice x y with h2 | h2 <;> rw [h1, h2]
      · exact List.mem_cons_self _ _
      · exact List.mem_cons_of_mem _ (List.mem_cons_self _ _)
    · exact List.mem_cons_of_mem _ (List.mem_cons_of_mem _ h1)

lemma foldl_min_le (xs : List Nat) (x : Nat) : ∀ c ∈ x :: xs, xs.foldl min x ≤ c := by
  induction xs generalizing x with
  | nil => intro c hc; simp at hc; simp [List.foldl, hc]
  | cons y ys ih =>
    intro c hc
    simp only [List.mem_cons] at hc
    have hle : List.foldl min (min x y) ys ≤ min x y :=
      ih (min x y) (min x y) (List.mem_cons_self _ _)
    rcases hc with rfl | rfl | hc
    · exact le_trans (by simpa [List.foldl] using hle) (min_le_left _ _)
    · exact le_trans (by simpa [List.foldl] using hle) (min_le_right _ _)
    · exact ih (min x y) c (List.mem_cons_of_mem _ hc)

lemma tiebreak_spec {l : List Nat} (h : l ≠ []) :
    ∃ w, alphabetical_tiebreak l = some w ∧ w ∈ l ∧ ∀ c ∈ l, w ≤ c := by
  match l, h with
  | x :: xs, _ =>
    exact ⟨xs.foldl min x, rfl, foldl_min_mem xs x, foldl_min_le xs x⟩

lemma le_listMax {xs : List Nat} : ∀ x ∈ xs, x ≤ listMax xs := by
  induction xs with
  | nil => simp
  | cons y ys ih =>
    intro x hx
    rcases List.mem_cons.mp hx with rfl | hx
    · exact le_max_left _ _
    · exact le_trans (ih x hx) (le_max_right _ _)

lemma listMax_mem {xs : List Nat} (h : xs ≠ []) : listMax xs ∈ xs := by
  induction xs with
  | nil => exact absurd rfl h
  | cons y ys ih =>
    cases ys with
    | nil => simp [listMax, List.foldr]
    | cons z zs =>
      have hmem := ih (by simp)
      show max y (listMax (z :: zs)) ∈ y :: z :: zs
      rcases max_choice y (listMax (z :: zs)) with h1 | h1
      · rw [h1]; exact List.mem_cons_self _ _
      · rw [h1]; exact List.mem_cons_of_mem _ hmem

lemma bincount5_length (xs : List Nat) : (bincount5 xs).length = 5 := by
  simp [bincount5]

lemma bincount5_getD {xs : List Nat} {c : Nat} (hc : c < 5) :
    (bincount5 xs).getD c 0 = xs.count c := by
  rw [bincount5, List.getD_eq_getElem _ _ (by simpa using hc)]
  simp

lemma bincount5_sum {xs : List Nat} (h : ∀ x ∈ xs, x < 5) :
    (bincount5 xs).sum = xs.length := by
  induction xs with
  | nil => rfl
  | cons y ys ih =>
    have hy : y < 5 := h y (List.mem_cons_self _ _)
    have hys := ih (fun x hx => h x (List.mem_cons_of_mem _ hx))
    have hexp : bincount5 (y :: ys) =
        (List.range 5).map (fun c => ys.count c + if y = c then 1 else 0) := by
      simp [bincount5, List.count_cons]
    rw [hexp]
    have hsplit : ∀ n : Nat, ((List.range n).map
          (fun c => ys.count c + if y = c then 1 else 0)).sum =
        ((List.range n).map (fun c => ys.count c)).sum +
          ((List.range n).map (fun c => if y = c then 1 else 0)).sum := by
      intro n
      induction n with
      | zero => rfl
      | succ m ihm => simp [List.range_succ, ihm]; omega
    rw [hsplit]
    have hind : ((List.range 5).map (fun c => if y = c then 1 else 0)).sum = 1 := by
      interval_cases y <;> decide
    have : ((List.range 5).map fun c => ys.count c).sum = ys.length := by
      simpa [bincount5] using hys
    simp [this, hind]

/-- Selection of the max-entry/lowest-index winner over a length-5 tally
vector, as shared by Plurality and Borda. -/
lemma select_spec (v : List Nat) (h5 : v.length = 5) :
    ∃ w, alphabetical_tiebreak
        ((List.range 5).filter (fun c => v.getD c 0 == listMax v)) = some w ∧
      w < 5 ∧ v.getD w 0 = listMax v ∧
      (∀ c, c < 5 → v.getD c 0 ≤ v.getD w 0) ∧
      (∀ c, c < 5 → v.getD c 0 = v.getD w 0 → w ≤ c) := by
  have hne : v ≠ [] := by intro h; rw [h] at h5; simp at h5
  obtain ⟨i, hi, hvi⟩ := List.mem_iff_getElem.mp (listMax_mem hne)
  have hi5 : i < 5 := h5 ▸ hi
  have hmemtied : i ∈ (List.range 5).filter (fun c => v.getD c 0 == listMax v) := by
    rw [List.mem_filter]
    refine ⟨List.mem_range.mpr hi5, ?_⟩
    rw [List.getD_eq_getElem _ _ hi, hvi]
    simp
  obtain ⟨w, hw, hwmem, hwmin⟩ := tiebreak_spec (List.ne_nil_of_mem hmemtied)
  rw [List.mem_filter, List.mem_range, beq_iff_eq] at hwmem
  refine ⟨w, hw, hwmem.1, hwmem.2, ?_, ?_⟩
  · intro c hc
    rw [hwmem.2]
    exact le_listMax _ (List.getD_eq_getElem v 0 (h5 ▸ hc) ▸ List.getElem_mem _)
  · intro c hc hceq
    refine hwmin c ?_
    rw [List.mem_filter, List.mem_range, beq_iff_eq]
    exact ⟨hc, by rw [hceq, hwmem.2]⟩

lemma mem_explicit_five {x : Nat} : x ∈ ([0, 1, 2, 3, 4] : List Nat) ↔ x < 5 := by
  simp; omega

/-- Entries of an in-domain row are candidate ids below 5. -/
lemma perm_getD_lt {row : List Nat} (h : IsPermBallot row) {pos : Nat} (hpos : pos < 5) :
    row.getD pos 0 < 5 := by
  have hlen : row.length = 5 := by simpa using h.length_eq
  rw [List.getD_eq_getElem _ _ (by omega)]
  exact mem_explicit_five.mp (h.mem_iff.mp (List.getElem_mem _))

lemma zipWith_sum_mul (v w : List Nat) (p : Nat) (h : v.length = w.length) :
    (List.zipWith (fun s c => s + c * p) v w).sum = v.sum + w.sum * p := by
  induction v generalizing w with
  | nil =>
    cases w with
    | nil => simp
    | cons b bs => simp at h
  | cons a as ih =>
    cases w with
    | nil => simp at h
    | cons b bs =>
      simp only [List.zipWith_cons_cons, List.sum_cons]
      rw [ih bs (by simpa using h)]
      ring

/-- Invariant of the Borda score-accumulation fold: starting from a
length-5 vector, after processing any list of in-range positions the
vector still has length 5 and its total grew by `n` points per position
processed. -/
lemma borda_fold_invariant (preferences : List (List Nat)) (h : InDomain preferences) :
    ∀ (ps : List Nat), (∀ p ∈ ps, p < 5) → ∀ (init : List Nat), init.length = 5 →
      (ps.foldl
          (fun scores pos =>
            List.zipWith (fun s c => s + c * position_points.getD pos 0) scores
              (bincount5 (preferences.map (fun row => row.getD pos 0)))) init).length = 5 ∧
      (ps.foldl
          (fun scores pos =>
            List.zipWith (fun s c => s + c * position_points.getD pos 0) scores
              (bincount5 (preferences.map (fun row => row.getD pos 0)))) init).sum
        = init.sum + preferences.length *
            (ps.map (fun pos => position_points.getD pos 0)).sum := by
  intro ps
  induction ps with
  | nil => intro _ init hinit; simp [hinit]
  | cons p ps ih =>
    intro hps init hinit
    have hp5 : p < 5 := hps p (List.mem_cons_self _ _)
    have hcol : ∀ x ∈ preferences.map (fun row => row.getD p 0), x < 5 := by
      intro x hx
      obtain ⟨row, hrow, rfl⟩ := List.mem_map.mp hx
      exact perm_getD_lt (h row hrow) hp5
    have hcolsum : (bincount5 (preferences.map (fun row => row.getD p 0))).sum
        = preferences.length := by rw [bincount5_sum hcol]; simp
    have hlen1 : (List.zipWith (fun s c => s + c * position_points.getD p 0) init
        (bincount5 (preferences.map (fun row => row.getD p 0)))).length = 5 := by
      rw [List.length_zipWith, hinit, bincount5_length]
      simp
    obtain ⟨hL, hS⟩ := ih (fun q hq => hps q (List.mem_cons_of_mem _ hq)) _ hlen1
    rw [List.foldl_cons]
    refine ⟨hL, ?_⟩
    rw [hS, zipWith_sum_mul _ _ _ (by rw [hinit, bincount5_length]), hcolsum]
    simp [List.map_cons]
    ring

/-- Total Borda points over all candidates equal ten points per ballot. -/
lemma scoresOf_sum (preferences : List (List Nat)) (h : InDomain preferences) :
    (BordaRule.scoresOf preferences).sum = preferences.length * 10 := by
  have hinv := (borda_fold_invariant preferences h (List.range 5)
    (fun p hp => List.mem_range.mp hp) (List.replicate 5 0) (by simp)).2
  rw [BordaRule.scoresOf, hinv]
  norm_num [List.range_succ, position_points]

/-- C2: on every in-domain ballot set of `n` ballots the per-candidate
Borda scores sum to exactly `n * 10`, and the aux fields `total_points`
and `expected_total_points` both equal `n * 10`. -/
theorem C2_borda_conservation (preferences : List (List Nat)) (h : InDomain preferences) :
    (BordaRule.compute preferences).aux.lookup "scores"
        = some (AuxVal.natList (BordaRule.scoresOf preferences)) ∧
    (BordaRule.scoresOf preferences).sum = preferences.length * 10 ∧
    (BordaRule.compute preferences).aux.lookup "total_points"
        = some (AuxVal.nat (preferences.length * 10)) ∧
    (BordaRule.compute preferences).aux.lookup "expected_total_points"
        = some (AuxVal.nat (preferences.length * 10)) := by
  have hsum := scoresOf_sum preferences h
  refine ⟨rfl, hsum, ?_, rfl⟩
  have h1 : (BordaRule.compute preferences).aux.lookup "total_points"
      = some (AuxVal.nat (BordaRule.scoresOf preferences).sum) := rfl
  rw [h1, hsum]

/-- Witness for C2 at the single ballot `[0, 1, 2, 3, 4]`. -/
theorem C2_borda_conservation_witness :
    InDomain [[0, 1, 2, 3, 4]] ∧
    ((BordaRule.compute [[0, 1, 2, 3, 4]]).aux.lookup "scores"
        = some (AuxVal.natList (BordaRule.scoresOf [[0, 1, 2, 3, 4]])) ∧
      (BordaRule.scoresOf [[0, 1, 2, 3, 4]]).sum = [[0, 1, 2, 3, 4]].length * 10 ∧
      (BordaRule.compute [[0, 1, 2, 3, 4]]).aux.lookup "total_points"
        = some (AuxVal.nat ([[0, 1, 2, 3, 4]].length * 10)) ∧
      (BordaRule.compute [[0, 1, 2, 3, 4]]).aux.lookup "expected_total_points"
        = some (AuxVal.nat ([[0, 1, 2, 3, 4]].length * 10))) :=
  ⟨by decide, C2_borda_conservation [[0, 1, 2, 3, 4]] (by decide)⟩

/-! ### Claim theorems for Plurality and Borda winner selection -/

/-- C5: on every ballot set (empty included) Plurality and Borda return a
defined winner, namely the smallest candidate id among those sharing the
maximum first-place count (resp. the maximum Borda score); the tie-break
applies identically on every tie, including a full five-way tie, and no
absent winner is ever produced. -/
theorem C5_plurality_borda_smallest_argmax (preferences : List (List Nat)) :
    (∃ w, (PluralityRule.compute preferences).winner = some w ∧ w < 5 ∧
      (let counts := bincount5 (preferences.map (fun row => row.headD 0))
       (∀ c, c < 5 → counts.getD c 0 ≤ counts.getD w 0) ∧
       (∀ c, c < 5 → counts.getD c 0 = counts.getD w 0 → w ≤ c))) ∧
    (∃ w, (BordaRule.compute preferences).winner = some w ∧ w < 5 ∧
      (let scores := BordaRule.scoresOf preferences
       (∀ c, c < 5 → scores.getD c 0 ≤ scores.getD w 0) ∧
       (∀ c, c < 5 → scores.getD c 0 = scores.getD w 0 → w ≤ c))) := by
  constructor
  · obtain ⟨w, hw, hw5, _, hle, hmin⟩ :=
      select_spec (bincount5 (preferences.map (fun row => row.headD 0)))
        (bincount5_length _)
    exact ⟨w, hw, hw5, hle, hmin⟩
  · obtain ⟨w, hw, hw5, _, hle, hmin⟩ :=
      select_spec (BordaRule.scoresOf preferences) (by
        show (BordaRule.scoresOf preferences).length = 5
        simp [BordaRule.scoresOf, List.range_succ, bincount5])
    exact ⟨w, hw, hw5, hle, hmin⟩

/-! ### Condorcet: pairwise matrix and winner characterization -/

/-- On an in-domain row, each candidate id below 5 occurs at a genuine
position: its rank is inside the row and the row holds it there. -/
lemma rankIn_spec {row : List Nat} (h : IsPermBallot row) {a : Nat} (ha : a < 5) :
    ∃ hlt : rankIn row a < row.length, row.get ⟨rankIn row a, hlt⟩ = a := by
  have hmem : a ∈ row := h.mem_iff.mpr (mem_explicit_five.mpr ha)
  have hlt : rankIn row a < row.length := by
    rw [rankIn, List.findIdx_lt_length]
    exact ⟨a, hmem, by simp⟩
  refine ⟨hlt, ?_⟩
  have := @List.findIdx_getElem _ (fun x => x == a) row hlt
  simpa using this

/-- Distinct candidates occupy distinct ranks on an in-domain row, so
exactly one of the two strict rank comparisons holds per row. -/
lemma rank_trichotomy {row : List Nat} (h : IsPermBallot row) {a b : Nat}
    (ha : a < 5) (hb : b < 5) (hab : a ≠ b) :
    rankIn row a < rankIn row b ↔ ¬(rankIn row b < rankIn row a) := by
  obtain ⟨hlta, hgeta⟩ := rankIn_spec h ha
  obtain ⟨hltb, hgetb⟩ := rankIn_spec h hb
  have hne : rankIn row a ≠ rankIn row b := by
    intro heq
    apply hab
    rw [← hgeta, ← hgetb]
    congr 1
    exact Fin.ext heq
  omega

/-- The two cells of a pairwise contest always account for every ballot:
`wins[a, b] + wins[b, a] = n` off the diagonal. -/
lemma winsEntry_add {preferences : List (List Nat)} (h : InDomain preferences)
    {a b : Nat} (ha : a < 5) (hb : b < 5) (hab : a ≠ b) :
    CondorcetRule.winsEntry preferences a b + CondorcetRule.winsEntry preferences b a
      = preferences.length := by
  rw [CondorcetRule.winsEntry, CondorcetRule.winsEntry, if_neg hab, if_neg (Ne.symm hab)]
  have hcongr : preferences.countP (fun row => decide (rankIn row b < rankIn row a))
      = preferences.countP
          (fun row => decide ¬((fun r => decide (rankIn r a < rankIn r b)) row = true)) := by
    apply List.countP_congr
    intro row hrow
    have ht := rank_trichotomy (h row hrow) ha hb hab
    simp only [decide_eq_true_eq]
    constructor
    · intro hlt; simpa [ht] using hlt
    · intro hnot; simp at hnot; omega
  rw [hcongr]
  exact (List.length_eq_countP_add_countP _ preferences).symm

/-- The source's winner test over signed integers coincides with the
specified strict pairwise-majority test. -/
lemma winsEntry_test_iff {preferences : List (List Nat)} (h : InDomain preferences)
    {a b : Nat} (ha : a < 5) (hb : b < 5) (hab : a ≠ b) :
    ((CondorcetRule.winsEntry preferences a b : Int) >
        (preferences.length : Int) - (CondorcetRule.winsEntry preferences a b : Int)) ↔
      CondorcetRule.winsEntry preferences a b > CondorcetRule.winsEntry preferences b a := by
  have hadd := winsEntry_add h ha hb hab
  omega

/-- Membership in the source's `beats_all` list is exactly qualification. -/
lemma mem_beats_all_iff {preferences : List (List Nat)} (h : InDomain preferences) {a : Nat} :
    a ∈ CondorcetRule.beats_all preferences ↔ Qualifies preferences a := by
  rw [CondorcetRule.beats_all, List.mem_filter, List.mem_range]
  simp only [List.all_eq_true, List.mem_range, Bool.or_eq_true, decide_eq_true_eq]
  constructor
  · rintro ⟨ha, hall⟩
    refine ⟨ha, fun b hb hba => ?_⟩
    rcases hall b hb with hba' | htest
    · exact absurd hba' hba
    · exact (winsEntry_test_iff h ha hb (Ne.symm hba)).mp htest
  · rintro ⟨ha, hall⟩
    refine ⟨ha, fun b hb => ?_⟩
    by_cases hba : b = a
    · exact Or.inl hba
    · exact Or.inr ((winsEntry_test_iff h ha hb (Ne.symm hba)).mpr (hall b hb hba))

/-- Two qualifying candidates would have to beat each other, so the
Condorcet winner is unique when it exists. -/
lemma qualifies_unique {preferences : List (List Nat)} {a a' : Nat}
    (h1 : Qualifies preferences a) (h2 : Qualifies preferences a') : a = a' := by
  by_contra hne
  have hx := h1.2 a' h2.1 (Ne.symm hne)
  have hy := h2.2 a h1.1 hne
  omega

lemma eq_singleton_of_all_eq {l : List Nat} {a : Nat} (hnd : l.Nodup) (hmem : a ∈ l)
    (hall : ∀ x ∈ l, x = a) : l = [a] := by
  cases l with
  | nil => simp at hmem
  | cons x t =>
    have hx : x = a := hall x (List.mem_cons_self _ _)
    cases t with
    | nil => rw [hx]
    | cons y s =>
      have hy : y = a := hall y (List.mem_cons_of_mem _ (List.mem_cons_self _ _))
      rw [List.nodup_cons] at hnd
      exact absurd (by rw [hx, ← hy]; exact List.mem_cons_self _ _) hnd.1

lemma condorcet_winner_eq_some_iff {preferences : List (List Nat)} {a : Nat} :
    (CondorcetRule.compute preferences).winner = some a ↔
      CondorcetRule.beats_all preferences = [a] := by
  rcases hba : CondorcetRule.beats_all preferences with _ | ⟨x, _ | ⟨y, t⟩⟩
  · simp [CondorcetRule.compute, hba]
  · simp only [CondorcetRule.compute, hba, Option.some.injEq, List.cons.injEq, and_true]
  · simp [CondorcetRule.compute, hba]

/-- C1: on every in-domain ballot set, Condorcet returns a winner exactly
when a (necessarily unique) candidate strictly wins every pairwise
contest, the returned winner strictly wins every pairwise contest, and
otherwise the winner is absent. -/
theorem C1_condorcet_winner_iff (preferences : List (List Nat)) (h : InDomain preferences) :
    ((∃ a, (CondorcetRule.compute preferences).winner = some a) ↔
      (∃! a, Qualifies preferences a)) ∧
    (∀ a, (CondorcetRule.compute preferences).winner = some a → Qualifies preferences a) := by
  have hforward : ∀ a, (CondorcetRule.compute preferences).winner = some a →
      Qualifies preferences a := by
    intro a hw
    have hba := condorcet_winner_eq_some_iff.mp hw
    exact (mem_beats_all_iff h).mp (hba ▸ List.mem_cons_self _ _)
  refine ⟨⟨?_, ?_⟩, hforward⟩
  · rintro ⟨a, hw⟩
    exact ⟨a, hforward a hw, fun a' ha' => qualifies_unique ha' (hforward a hw)⟩
  · rintro ⟨a, haq, -⟩
    refine ⟨a, condorcet_winner_eq_some_iff.mpr ?_⟩
    apply eq_singleton_of_all_eq
    · exact List.Nodup.filter _ (List.nodup_range 5)
    · exact (mem_beats_all_iff h).mpr haq
    · intro x hx
      exact qualifies_unique ((mem_beats_all_iff h).mp hx) haq

/-- Witness for C1 at a three-ballot set with Condorcet winner 0. -/
theorem C1_condorcet_winner_iff_witness :
    InDomain [[0, 1, 2, 3, 4], [1, 0, 2, 3, 4], [2, 0, 1, 3, 4]] ∧
    (((∃ a, (CondorcetRule.compute
          [[0, 1, 2, 3, 4], [1, 0, 2, 3, 4], [2, 0, 1, 3, 4]]).winner = some a) ↔
        (∃! a, Qualifies [[0, 1, 2, 3, 4], [1, 0, 2, 3, 4], [2, 0, 1, 3, 4]] a)) ∧
      (∀ a, (CondorcetRule.compute
          [[0, 1, 2, 3, 4], [1, 0, 2, 3, 4], [2, 0, 1, 3, 4]]).winner = some a →
        Qualifies [[0, 1, 2, 3, 4], [1, 0, 2, 3, 4], [2, 0, 1, 3, 4]] a)) :=
  ⟨by decide, C1_condorcet_winner_iff _ (by decide)⟩

/-- Entries of the aux pairwise matrix are the `winsEntry` tallies. -/
lemma winsMatrix_getD {preferences : List (List Nat)} {a b : Nat} (ha : a < 5) (hb : b < 5) :
    ((CondorcetRule.winsMatrix preferences).getD a []).getD b 0
      = CondorcetRule.winsEntry preferences a b := by
  have h1 : (CondorcetRule.winsMatrix preferences).getD a []
      = (List.range 5).map (fun b => CondorcetRule.winsEntry preferences a b) := by
    rw [CondorcetRule.winsMatrix, List.getD_eq_getElem _ _ (by simpa using ha),
      List.getElem_map, List.getElem_range]
  rw [h1, List.getD_eq_getElem _ _ (by simpa using hb), List.getElem_map, List.getElem_range]

/-- C10: on every in-domain ballot set of `n` ballots the pairwise matrix
satisfies `wins[a][b] + wins[b][a] = n` off the diagonal and
`wins[a][a] = 0`; the code's integer winner test coincides with the
specified strict-majority test, and at most one candidate passes it. -/
theorem C10_condorcet_matrix_invariants (preferences : List (List Nat))
    (h : InDomain preferences) :
    (∀ a b, a < 5 → b < 5 → a ≠ b →
      ((CondorcetRule.winsMatrix preferences).getD a []).getD b 0 +
        ((CondorcetRule.winsMatrix preferences).getD b []).getD a 0
        = preferences.length) ∧
    (∀ a, a < 5 → ((CondorcetRule.winsMatrix preferences).getD a []).getD a 0 = 0) ∧
    (∀ a b, a < 5 → b < 5 → a ≠ b →
      (((CondorcetRule.winsEntry preferences a b : Int) >
          (preferences.length : Int) - (CondorcetRule.winsEntry preferences a b : Int)) ↔
        CondorcetRule.winsEntry preferences a b > CondorcetRule.winsEntry preferences b a)) ∧
    (CondorcetRule.beats_all preferences).length ≤ 1 := by
  refine ⟨?_, ?_, ?_, ?_⟩
  · intro a b ha hb hab
    rw [winsMatrix_getD ha hb, winsMatrix_getD hb ha]
    exact winsEntry_add h ha hb hab
  · intro a ha
    rw [winsMatrix_getD ha ha, CondorcetRule.winsEntry, if_pos rfl]
  · intro a b ha hb hab
    exact winsEntry_test_iff h ha hb hab
  · rcases hba : CondorcetRule.beats_all preferences with _ | ⟨x, _ | ⟨y, t⟩⟩
    · simp
    · simp
    · exfalso
      have hx : x ∈ CondorcetRule.beats_all preferences := by
        rw [hba]; exact List.mem_cons_self _ _
      have hy : y ∈ CondorcetRule.beats_all preferences := by
        rw [hba]; exact List.mem_cons_of_mem _ (List.mem_cons_self _ _)
      have hnd : (CondorcetRule.beats_all preferences).Nodup :=
        List.Nodup.filter _ (List.nodup_range 5)
      have hxy : x = y :=
        qualifies_unique ((mem_beats_all_iff h).mp hx) ((mem_beats_all_iff h).mp hy)
      rw [hba, List.nodup_cons] at hnd
      exact hnd.1 (hxy ▸ List.mem_cons_self _ _)

/-- Witness for C10 at a three-ballot set. -/
theorem C10_condorcet_matrix_invariants_witness :
    InDomain [[0, 1, 2, 3, 4], [1, 0, 2, 3, 4]] ∧
    ((∀ a b, a < 5 → b < 5 → a ≠ b →
      ((CondorcetRule.winsMatrix [[0, 1, 2, 3, 4], [1, 0, 2, 3, 4]]).getD a []).getD b 0 +
        ((CondorcetRule.winsMatrix [[0, 1, 2, 3, 4], [1, 0, 2, 3, 4]]).getD b []).getD a 0
        = [[0, 1, 2, 3, 4], [1, 0, 2, 3, 4]].length) ∧
    (∀ a, a < 5 →
      ((CondorcetRule.winsMatrix [[0, 1, 2, 3, 4], [1, 0, 2, 3, 4]]).getD a []).getD a 0 = 0) ∧
    (∀ a b, a < 5 → b < 5 → a ≠ b →
      (((CondorcetRule.winsEntry [[0, 1, 2, 3, 4], [1, 0, 2, 3, 4]] a b : Int) >
          ([[0, 1, 2, 3, 4], [1, 0, 2, 3, 4]].length : Int) -
            (CondorcetRule.winsEntry [[0, 1, 2, 3, 4], [1, 0, 2, 3, 4]] a b : Int)) ↔
        CondorcetRule.winsEntry [[0, 1, 2, 3, 4], [1, 0, 2, 3, 4]] a b >
          CondorcetRule.winsEntry [[0, 1, 2, 3, 4], [1, 0, 2, 3, 4]] b a)) ∧
    (CondorcetRule.beats_all [[0, 1, 2, 3, 4], [1, 0, 2, 3, 4]]).length ≤ 1) :=
  ⟨by decide, C10_condorcet_matrix_invariants _ (by decide)⟩

/-! ### IRV: loop invariants and termination -/

lemma listMax_le {xs : List Nat} {B : Nat} (h : ∀ x ∈ xs, x ≤ B) : listMax xs ≤ B := by
  induction xs with
  | nil => simp [listMax]
  | cons y ys ih =>
    show max y (listMax ys) ≤ B
    exact max_le (h y (List.mem_cons_self _ _))
      (ih (fun x hx => h x (List.mem_cons_of_mem _ hx)))

/-- Properties of `np.argmax` on a nonempty vector: the returned index is
in range and holds the maximum. -/
lemma npArgmax_spec {xs : List Nat} (h : xs ≠ []) :
    IRVRule.npArgmax xs < xs.length ∧ xs.getD (IRVRule.npArgmax xs) 0 = listMax xs := by
  have hlt : IRVRule.npArgmax xs < xs.length := by
    rw [IRVRule.npArgmax, List.findIdx_lt_length]
    exact ⟨listMax xs, listMax_mem h, by simp⟩
  refine ⟨hlt, ?_⟩
  rw [List.getD_eq_getElem _ _ hlt]
  have := @List.findIdx_getElem _ (fun x => x == listMax xs) xs hlt
  simpa using this

/-- Every tallied first choice is an in-range, currently active candidate. -/
lemma mem_firstChoices {preferences : List (List Nat)} {active : List Bool} {c : Nat}
    (hlen : active.length = 5) (hc : c ∈ IRVRule.firstChoices preferences active) :
    c < 5 ∧ active.getD c false = true := by
  rw [IRVRule.firstChoices, List.mem_filterMap] at hc
  obtain ⟨row, _, hfind⟩ := hc
  have hact : active.getD c false = true := by
    have h := List.find?_some hfind
    simpa using h
  refine ⟨?_, hact⟩
  by_contra hge
  rw [List.getD_eq_default _ _ (by omega)] at hact
  exact Bool.false_ne_true hact

/-- A true entry at some position puts `true` in the list. -/
lemma true_mem_of_getD {active : List Bool} {c : Nat} (h : active.getD c false = true) :
    true ∈ active := by
  by_cases hc : c < active.length
  · rw [List.getD_eq_getElem _ _ hc] at h
    exact h ▸ List.getElem_mem hc
  · rw [List.getD_eq_default _ _ (by omega)] at h
    exact absurd h Bool.false_ne_true

/-- Two distinct active positions force at least two `true` entries. -/
lemma count_true_ge_two {active : List Bool} {i j : Nat} (hij : i ≠ j)
    (hi : active.getD i false = true) (hj : active.getD j false = true) :
    2 ≤ active.count true := by
  induction active generalizing i j with
  | nil =>
    rw [List.getD_eq_default _ _ (by simp)] at hi
    exact absurd hi Bool.false_ne_true
  | cons b t ih =>
    match i, j, hij with
    | 0, 0, hij => exact absurd rfl hij
    | 0, j + 1, _ =>
      have hb : b = true := by simpa using hi
      have ht : true ∈ t := true_mem_of_getD (c := j) (by simpa using hj)
      have h1 : 1 ≤ t.count true := List.count_pos_iff.mpr ht
      have hcc : (b :: t).count true = t.count true + 1 := by
        rw [List.count_cons, hb]; simp
      omega
    | i + 1, 0, _ =>
      have hb : b = true := by simpa using hj
      have ht : true ∈ t := true_mem_of_getD (c := i) (by simpa using hi)
      have h1 : 1 ≤ t.count true := List.count_pos_iff.mpr ht
      have hcc : (b :: t).count true = t.count true + 1 := by
        rw [List.count_cons, hb]; simp
      omega
    | i + 1, j + 1, hij =>
      have h2 := ih (i := i) (j := j) (by omega) (by simpa using hi) (by simpa using hj)
      have hcc : t.count true ≤ (b :: t).count true := by
        rw [List.count_cons]
        split <;> omega
      omega

/-- Deactivating an active candidate decreases the active count by one. -/
lemma countActive_set_false {active : List Bool} {i : Nat} (hi : i < active.length)
    (hact : active.getD i false = true) :
    IRVRule.countActive (active.set i false) + 1 = IRVRule.countActive active := by
  have hgi : active[i] = true := by rwa [List.getD_eq_getElem _ _ hi] at hact
  have hpos : 1 ≤ active.count true :=
    List.count_pos_iff.mpr (true_mem_of_getD hact)
  rw [IRVRule.countActive, IRVRule.countActive, List.count_set _ _ _ _ hi, hgi]
  simp
  omega

/-- Effect of deactivation on membership tests at every index. -/
lemma getD_set_false {active : List Bool} {i c : Nat} (hi : i < active.length) :
    (active.set i false).getD c false
      = if c = i then false else active.getD c false := by
  by_cases hc : c < active.length
  · rw [List.getD_eq_getElem _ _ (by simpa using hc), List.getElem_set]
    by_cases hic : c = i
    · simp [hic]
    · rw [if_neg (fun h => hic h.symm), if_neg hic, List.getD_eq_getElem _ _ hc]
  · rw [List.getD_eq_default _ _ (by simp; omega),
      List.getD_eq_default _ _ (by omega)]
    rw [if_neg (by omega)]

/-- An active count of at least one yields a concrete active index. -/
lemma exists_active_of_pos {active : List Bool} (h : 1 ≤ IRVRule.countActive active) :
    ∃ i, i < active.length ∧ active.getD i false = true := by
  have : true ∈ active := List.count_pos_iff.mp (by rwa [IRVRule.countActive] at h)
  obtain ⟨i, hi, hget⟩ := List.mem_iff_getElem.mp this
  exact ⟨i, hi, by rwa [List.getD_eq_getElem _ _ hi]⟩

/-- Master invariant lemma for the IRV elimination loop: from any state
whose eliminated set and active flags are consistent and whose fuel is at
least the number of active candidates, the loop returns a result (never
hitting the fuel bound or an empty-`min` failure), with a final state
satisfying the same consistency; a returned winner is in range and still
active with the count vector recorded next to the elimination order, and
the no-winner exhaustion outcome happens only on the empty ballot set
with no elimination performed. -/
lemma irv_loop_spec (prefs : List (List Nat)) (hdom : InDomain prefs) :
    ∀ (fuel : Nat) (active : List Bool) (eo : List Nat),
      active.length = 5 →
      eo.Nodup →
      (∀ c, c ∈ eo ↔ (c < 5 ∧ active.getD c false = false)) →
      IRVRule.countActive active + eo.length = 5 →
      1 ≤ IRVRule.countActive active →
      IRVRule.countActive active ≤ fuel →
      ∃ r : RuleResult, IRVRule.loop prefs fuel active eo = some r ∧
        ∃ (activeF : List Bool) (eoF : List Nat),
          activeF.length = 5 ∧
          eoF.Nodup ∧
          (∀ c, c ∈ eoF ↔ (c < 5 ∧ activeF.getD c false = false)) ∧
          IRVRule.countActive activeF + eoF.length = 5 ∧
          (∀ w, r.winner = some w → w < 5 ∧ activeF.getD w false = true ∧
            ∃ cts, r.aux = [("counts", AuxVal.natList cts),
                            ("elimination_order", AuxVal.natList eoF)]) ∧
          (r.winner = none →
            r.aux = [("elimination_order", AuxVal.natList eoF)] ∧ prefs = [] ∧ eoF = eo) := by
  intro fuel
  induction fuel with
  | zero => intro active eo _ _ _ _ hpos hle; omega
  | succ fuel ih =>
    intro active eo hlen hnd hiff hsum hpos hle
    by_cases hfc : (IRVRule.firstChoices prefs active).isEmpty = true
    · refine ⟨⟨none, [("elimination_order", AuxVal.natList eo)]⟩, ?_,
        active, eo, hlen, hnd, hiff, hsum, ?_, ?_⟩
      · rw [IRVRule.loop]
        simp only [hfc, if_true]
      · intro w hw; exact absurd hw (by simp)
      · intro _
        refine ⟨rfl, ?_, rfl⟩
        by_contra hne
        obtain ⟨row, hrow⟩ := List.exists_mem_of_ne_nil prefs hne
        have hperm := hdom row hrow
        obtain ⟨i, hilt, hitrue⟩ := exists_active_of_pos hpos
        have hi5 : i < 5 := by rw [hlen] at hilt; exact hilt
        have himem : i ∈ row := hperm.mem_iff.mpr (mem_explicit_five.mpr hi5)
        have hsome : (row.find? (fun c => active.getD c false)).isSome = true :=
          List.find?_isSome.mpr ⟨i, himem, hitrue⟩
        obtain ⟨c0, hc0⟩ := Option.isSome_iff_exists.mp hsome
        have hc0mem : c0 ∈ IRVRule.firstChoices prefs active := by
          rw [IRVRule.firstChoices, List.mem_filterMap]
          exact ⟨row, hrow, hc0⟩
        rw [List.isEmpty_iff] at hfc
        rw [hfc] at hc0mem
        exact absurd hc0mem (List.not_mem_nil c0)
    · have hfcne : IRVRule.firstChoices prefs active ≠ [] := by
        intro h
        exact hfc (List.isEmpty_iff.mpr h)
      have hmem5 : ∀ c ∈ IRVRule.firstChoices prefs active, c < 5 :=
        fun c hc => (mem_firstChoices hlen hc).1
      have htotal : (bincount5 (IRVRule.firstChoices prefs active)).sum
          = (IRVRule.firstChoices prefs active).length := bincount5_sum hmem5
      have hflen : 1 ≤ (IRVRule.firstChoices prefs active).length :=
        List.length_pos.mpr hfcne
      have htotne : ¬((bincount5 (IRVRule.firstChoices prefs active)).sum = 0) := by
        omega
      by_cases hmaj : listMax (bincount5 (IRVRule.firstChoices prefs active)) * 2
          > (bincount5 (IRVRule.firstChoices prefs active)).sum
      · -- majority round: np.argmax wins immediately
        have hbne : bincount5 (IRVRule.firstChoices prefs active) ≠ [] := by
          intro h
          have := bincount5_length (IRVRule.firstChoices prefs active)
          rw [h] at this
          simp at this
        obtain ⟨hwlt, hwmax⟩ := npArgmax_spec hbne
        have hw5 : IRVRule.npArgmax (bincount5 (IRVRule.firstChoices prefs active)) < 5 := by
          rwa [bincount5_length] at hwlt
        have hmaxpos : 1 ≤ listMax (bincount5 (IRVRule.firstChoices prefs active)) := by
          omega
        have hcount : 1 ≤ (IRVRule.firstChoices prefs active).count
            (IRVRule.npArgmax (bincount5 (IRVRule.firstChoices prefs active))) := by
          rw [← bincount5_getD hw5, hwmax]
          exact hmaxpos
        have hwmem : IRVRule.npArgmax (bincount5 (IRVRule.firstChoices prefs active))
            ∈ IRVRule.firstChoices prefs active := List.count_pos_iff.mp hcount
        have hwact := (mem_firstChoices hlen hwmem).2
        refine ⟨⟨some (IRVRule.npArgmax (bincount5 (IRVRule.firstChoices prefs active))),
            [("counts", AuxVal.natList (bincount5 (IRVRule.firstChoices prefs active))),
             ("elimination_order", AuxVal.natList eo)]⟩, ?_,
          active, eo, hlen, hnd, hiff, hsum, ?_, ?_⟩
        · rw [IRVRule.loop]
          rw [if_neg hfc, if_neg htotne, if_pos hmaj]
        · intro w hw
          obtain rfl : IRVRule.npArgmax (bincount5 (IRVRule.firstChoices prefs active)) = w :=
            by simpa using hw
          exact ⟨hw5, hwact, bincount5 (IRVRule.firstChoices prefs active), rfl⟩
        · intro hw; exact absurd hw (by simp)
      · -- elimination round
        obtain ⟨c0, hc0mem⟩ := List.exists_mem_of_ne_nil _ hfcne
        obtain ⟨hc05, hc0act⟩ := mem_firstChoices hlen hc0mem
        have hacne : (List.range 5).filter (fun c => active.getD c false) ≠ [] := by
          intro h
          have : c0 ∈ (List.range 5).filter (fun c => active.getD c false) :=
            List.mem_filter.mpr ⟨List.mem_range.mpr hc05, hc0act⟩
          rw [h] at this
          exact absurd this (List.not_mem_nil c0)
        rcases hmap : ((List.range 5).filter (fun c => active.getD c false)).map
            (fun c => (bincount5 (IRVRule.firstChoices prefs active)).getD c 0)
          with _ | ⟨m, ms⟩
        · exact absurd (List.map_eq_nil_iff.mp hmap) hacne
        · have hminmem : ms.foldl min m ∈ m :: ms := foldl_min_mem ms m
          rw [← hmap, List.mem_map] at hminmem
          obtain ⟨ce, hcemem, hceval⟩ := hminmem
          obtain ⟨hce5, hceact⟩ : ce ∈ List.range 5 ∧ active.getD ce false = true :=
            by simpa using List.mem_filter.mp hcemem
          have hcmne : (List.range 5).filter
              (fun c => active.getD c false &&
                ((bincount5 (IRVRule.firstChoices prefs active)).getD c 0 == ms.foldl min m))
              ≠ [] := by
            intro h
            have : ce ∈ (List.range 5).filter
                (fun c => active.getD c false &&
                  ((bincount5 (IRVRule.firstChoices prefs active)).getD c 0
                    == ms.foldl min m)) := by
              rw [List.mem_filter]
              exact ⟨hce5, by rw [hceact, hceval]; simp⟩
            rw [h] at this
            exact absurd this (List.not_mem_nil ce)
          obtain ⟨elim, helimeq, helimmem, helimmin⟩ := tiebreak_spec hcmne
          have helimfacts : elim < 5 ∧ active.getD elim false = true ∧
              (bincount5 (IRVRule.firstChoices prefs active)).getD elim 0
                = ms.foldl min m := by
            obtain ⟨h1, h2⟩ := List.mem_filter.mp helimmem
            have h3 := List.mem_range.mp h1
            rw [Bool.and_eq_true, beq_iff_eq] at h2
            exact ⟨h3, h2.1, h2.2⟩
          obtain ⟨helim5, helimact, -⟩ := helimfacts
          -- at least two candidates are active in an elimination round
          have h2act : 2 ≤ IRVRule.countActive active := by
            by_contra hlt
            have hone : IRVRule.countActive active = 1 := by omega
            have hone2 : active.count true = 1 := hone
            have hall : ∀ x ∈ IRVRule.firstChoices prefs active, x = elim := by
              intro x hx
              obtain ⟨hx5, hxact⟩ := mem_firstChoices hlen hx
              by_contra hxe
              exact absurd (count_true_ge_two hxe hxact helimact) (by omega)
            have hce : (IRVRule.firstChoices prefs active).count elim
                = (IRVRule.firstChoices prefs active).length :=
              List.count_eq_length.mpr (fun b hb => (hall b hb).symm)
            have hmaxle : listMax (bincount5 (IRVRule.firstChoices prefs active))
                ≤ (IRVRule.firstChoices prefs active).length := by
              apply listMax_le
              intro x hx
              rw [bincount5] at hx
              obtain ⟨c, -, rfl⟩ := List.mem_map.mp hx
              exact List.count_le_length _ _
            have hmaxge : (IRVRule.firstChoices prefs active).length
                ≤ listMax (bincount5 (IRVRule.firstChoices prefs active)) := by
              rw [← hce, ← bincount5_getD helim5]
              apply le_listMax
              rw [List.getD_eq_getElem _ _ (by rw [bincount5_length]; exact helim5)]
              exact List.getElem_mem _
            exact hmaj (by omega)
          have helimlt : elim < active.length := by omega
          have hdec := countActive_set_false helimlt helimact
          have hnotin : elim ∉ eo := by
            intro h
            have := (hiff elim).mp h
            rw [helimact] at this
            exact absurd this.2 (by simp)
          have hlen2 : (active.set elim false).length = 5 := by
            rw [List.length_set, hlen]
          have hnd2 : (eo ++ [elim]).Nodup := by
            rw [List.nodup_append]
            refine ⟨hnd, by simp, ?_⟩
            intro a ha hae
            rw [List.mem_singleton] at hae
            exact hnotin (hae ▸ ha)
          have hiff2 : ∀ c, c ∈ eo ++ [elim] ↔
              (c < 5 ∧ (active.set elim false).getD c false = false) := by
            intro c
            rw [List.mem_append, List.mem_singleton, getD_set_false helimlt]
            by_cases hceq : c = elim
            · subst hceq
              simp [helim5, hnotin]
            · rw [if_neg hceq]
              rw [hiff c]
              constructor
              · rintro (h | h)
                · exact h
                · exact absurd h hceq
              · exact fun h => Or.inl h
          have hsum2 : IRVRule.countActive (active.set elim false)
              + (eo ++ [elim]).length = 5 := by
            rw [List.length_append]
            simp only [List.length_cons, List.length_nil]
            omega
          have hpos2 : 1 ≤ IRVRule.countActive (active.set elim false) := by omega
          by_cases hone : IRVRule.countActive (active.set elim false) = 1
          · -- last candidate standing wins
            have htmem : true ∈ active.set elim false :=
              List.count_pos_iff.mp (by rw [← IRVRule.countActive]; omega)
            have hwlt : (active.set elim false).findIdx (fun b => b)
                < (active.set elim false).length := by
              rw [List.findIdx_lt_length]
              exact ⟨true, htmem, rfl⟩
            have hwget : (active.set elim false).getD
                ((active.set elim false).findIdx (fun b => b)) false = true := by
              rw [List.getD_eq_getElem _ _ hwlt]
              exact @List.findIdx_getElem _ (fun b => b) _ hwlt
            have hw5 : (active.set elim false).findIdx (fun b => b) < 5 := by
              rwa [hlen2] at hwlt
            refine ⟨⟨some ((active.set elim false).findIdx (fun b => b)),
                [("counts", AuxVal.natList (bincount5 (IRVRule.firstChoices prefs active))),
                 ("elimination_order", AuxVal.natList (eo ++ [elim]))]⟩, ?_,
              active.set elim false, eo ++ [elim], hlen2, hnd2, hiff2, hsum2, ?_, ?_⟩
            · rw [IRVRule.loop]
              rw [if_neg hfc, if_neg htotne, if_neg hmaj]
              simp only [hmap, helimeq, if_pos hone]
            · intro w hw
              obtain rfl : (active.set elim false).findIdx (fun b => b) = w := by
                simpa using hw
              exact ⟨hw5, hwget,
                bincount5 (IRVRule.firstChoices prefs active), rfl⟩
            · intro hw; exact absurd hw (by simp)
          · -- recurse with one fewer active candidate
            have hle2 : IRVRule.countActive (active.set elim false) ≤ fuel := by omega
            obtain ⟨r, hr, activeF, eoF, hFlen, hFnd, hFiff, hFsum, hFwin, hFnone⟩ :=
              ih (active.set elim false) (eo ++ [elim]) hlen2 hnd2 hiff2 hsum2 hpos2 hle2
            refine ⟨r, ?_, activeF, eoF, hFlen, hFnd, hFiff, hFsum, hFwin, ?_⟩
            · rw [IRVRule.loop]
              rw [if_neg hfc, if_neg htotne, if_neg hmaj]
              simp only [hmap, helimeq, if_neg hone]
              exact hr
            · intro hw
              obtain ⟨-, hpe, -⟩ := hFnone hw
              exfalso
              apply hfcne
              rw [hpe, IRVRule.firstChoices]
              rfl

/-- The master lemma applied at the initial state of `IRVRule.compute`:
all five candidates active, empty elimination order, fuel 5. -/
lemma irv_compute_spec (preferences : List (List Nat)) (hdom : InDomain preferences) :
    ∃ r : RuleResult, IRVRule.compute preferences = some r ∧
      ∃ (activeF : List Bool) (eoF : List Nat),
        activeF.length = 5 ∧
        eoF.Nodup ∧
        (∀ c, c ∈ eoF ↔ (c < 5 ∧ activeF.getD c false = false)) ∧
        IRVRule.countActive activeF + eoF.length = 5 ∧
        (∀ w, r.winner = some w → w < 5 ∧ activeF.getD w false = true ∧
          ∃ cts, r.aux = [("counts", AuxVal.natList cts),
                          ("elimination_order", AuxVal.natList eoF)]) ∧
        (r.winner = none →
          r.aux = [("elimination_order", AuxVal.natList eoF)] ∧
            preferences = [] ∧ eoF = []) := by
  have hca : IRVRule.countActive (List.replicate 5 true) = 5 := by decide
  have hiff : ∀ c, c ∈ ([] : List Nat) ↔
      (c < 5 ∧ (List.replicate 5 true).getD c false = false) := by
    intro c
    constructor
    · intro hmem
      exact absurd hmem (List.not_mem_nil c)
    · rintro ⟨hc, hfalse⟩
      rw [List.getD_eq_getElem _ _ (by simpa using hc), List.getElem_replicate] at hfalse
      exact absurd hfalse (by simp)
  exact irv_loop_spec preferences hdom 5 (List.replicate 5 true) []
    (by simp) List.nodup_nil hiff (by rw [hca]; simp) (by rw [hca]; omega) (by rw [hca])

/-- In the winner case, at least one candidate is still active at the
end, so at most four eliminations can have been recorded. -/
lemma irv_eoF_le_four {activeF : List Bool} {eoF : List Nat} {w : Nat}
    (hsum : IRVRule.countActive activeF + eoF.length = 5)
    (hact : activeF.getD w false = true) : eoF.length ≤ 4 := by
  have h1 : 1 ≤ IRVRule.countActive activeF := by
    have : 1 ≤ activeF.count true := List.count_pos_iff.mpr (true_mem_of_getD hact)
    exact this
  omega

/-- C3: on every in-domain ballot set the IRV loop terminates — within
fuel 5 it returns a definite result rather than the fuel/`ValueError`
marker — and the recorded elimination order has length at most
`K - 1 = 4`, since every non-returning iteration deactivates exactly one
active candidate. -/
theorem C3_irv_terminates (preferences : List (List Nat)) (h : InDomain preferences) :
    ∃ r : RuleResult, IRVRule.compute preferences = some r ∧
      ∃ eoF, r.aux.lookup "elimination_order" = some (AuxVal.natList eoF) ∧
        eoF.length ≤ 4 := by
  obtain ⟨r, hr, activeF, eoF, -, -, -, hFsum, hFwin, hFnone⟩ := irv_compute_spec preferences h
  refine ⟨r, hr, eoF, ?_, ?_⟩
  · rcases hw : r.winner with _ | w
    · obtain ⟨haux, -, -⟩ := hFnone hw
      rw [haux]
      rfl
    · obtain ⟨-, -, cts, haux⟩ := hFwin w hw
      rw [haux]
      rfl
  · rcases hw : r.winner with _ | w
    · obtain ⟨-, -, rfl⟩ := hFnone hw
      simp
    · obtain ⟨-, hact, -⟩ := hFwin w hw
      exact irv_eoF_le_four hFsum hact

/-- Witness for C3 at a one-ballot set. -/
theorem C3_irv_terminates_witness :
    InDomain [[0, 1, 2, 3, 4]] ∧
    ∃ r : RuleResult, IRVRule.compute [[0, 1, 2, 3, 4]] = some r ∧
      ∃ eoF, r.aux.lookup "elimination_order" = some (AuxVal.natList eoF) ∧
        eoF.length ≤ 4 :=
  ⟨by decide, C3_irv_terminates [[0, 1, 2, 3, 4]] (by decide)⟩

/-- C9: on every in-domain ballot set IRV returns a result, and the
winner is absent (exhaustion) exactly when the ballot set is empty. -/
theorem C9_irv_winner_iff_nonempty (preferences : List (List Nat)) (h : InDomain preferences) :
    ∃ r : RuleResult, IRVRule.compute preferences = some r ∧
      (r.winner = none ↔ preferences = []) := by
  obtain ⟨r, hr, activeF, eoF, -, -, -, -, -, hFnone⟩ := irv_compute_spec preferences h
  refine ⟨r, hr, ?_, ?_⟩
  · intro hw
    exact (hFnone hw).2.1
  · intro hpe
    subst hpe
    have hempty : IRVRule.compute ([] : List (List Nat))
        = some (⟨none, [("elimination_order", AuxVal.natList [])]⟩ : RuleResult) := by
      decide
    rw [hempty] at hr
    obtain rfl : (⟨none, [("elimination_order", AuxVal.natList [])]⟩ : RuleResult) = r := by
      simpa using hr
    rfl

/-- Witness for C9 at a one-ballot set (winner present) — the theorem is
applied at a concrete in-domain input. -/
theorem C9_irv_winner_iff_nonempty_witness :
    InDomain [[2, 0, 1, 3, 4]] ∧
    ∃ r : RuleResult, IRVRule.compute [[2, 0, 1, 3, 4]] = some r ∧
      (r.winner = none ↔ [[2, 0, 1, 3, 4]] = ([] : List (List Nat))) :=
  ⟨by decide, C9_irv_winner_iff_nonempty [[2, 0, 1, 3, 4]] (by decide)⟩

/-- C4, counterexample: on the single ballot `[0,1,2,3,4]` IRV returns
winner 0 by immediate strict majority with an empty elimination order,
so `{winner} ∪ eliminated = {0}` is not the full candidate set. -/
theorem C4_counterexample :
    IRVRule.compute [[0, 1, 2, 3, 4]]
      = some { winner := some 0,
               aux := [("counts", AuxVal.natList [1, 0, 0, 0, 0]),
                       ("elimination_order", AuxVal.natList [])] } ∧
    ¬(∀ c, c < 5 → (c = 0 ∨ c ∈ ([] : List Nat))) := by
  constructor
  · decide
  · intro hall
    rcases hall 1 (by omega) with h | h
    · exact absurd h (by omega)
    · exact absurd h (List.not_mem_nil 1)

/-- C4 (amended): the elimination order has no repeated candidate, every
entry is a candidate id below 5, its length is at most `K - 1 = 4`, and a
returned winner is never among the eliminated; the union
`{winner} ∪ eliminated` equals the full candidate set exactly in the
last-standing case (elimination order of length 4), while an early
strict-majority winner leaves it a proper subset. -/
theorem C4_irv_elimination_order (preferences : List (List Nat)) (h : InDomain preferences) :
    ∃ r : RuleResult, IRVRule.compute preferences = some r ∧
      ∃ eoF, r.aux.lookup "elimination_order" = some (AuxVal.natList eoF) ∧
        eoF.Nodup ∧ eoF.length ≤ 4 ∧ (∀ c ∈ eoF, c < 5) ∧
        (∀ w, r.winner = some w → w < 5 ∧ w ∉ eoF ∧
          (eoF.length = 4 → ∀ c, c < 5 → (c = w ∨ c ∈ eoF))) := by
  obtain ⟨r, hr, activeF, eoF, hFlen, hFnd, hFiff, hFsum, hFwin, hFnone⟩ :=
    irv_compute_spec preferences h
  refine ⟨r, hr, eoF, ?_, hFnd, ?_, ?_, ?_⟩
  · rcases hw : r.winner with _ | w
    · obtain ⟨haux, -, -⟩ := hFnone hw
      rw [haux]; rfl
    · obtain ⟨-, -, cts, haux⟩ := hFwin w hw
      rw [haux]; rfl
  · rcases hw : r.winner with _ | w
    · obtain ⟨-, -, rfl⟩ := hFnone hw
      simp
    · obtain ⟨-, hact, -⟩ := hFwin w hw
      exact irv_eoF_le_four hFsum hact
  · exact fun c hc => ((hFiff c).mp hc).1
  · intro w hw
    obtain ⟨hw5, hact, -⟩ := hFwin w hw
    refine ⟨hw5, ?_, ?_⟩
    · intro hmem
      rw [((hFiff w).mp hmem).2] at hact
      exact absurd hact (by simp)
    · intro h4 c hc5
      by_cases hcw : c = w
      · exact Or.inl hcw
      · refine Or.inr ((hFiff c).mpr ⟨hc5, ?_⟩)
        by_contra hcact
        have hcact2 : activeF.getD c false = true := by
          rcases Bool.eq_false_or_eq_true (activeF.getD c false) with h1 | h1
          · exact h1
          · exact absurd h1 hcact
        have h2 : 2 ≤ activeF.count true := count_true_ge_two hcw hcact2 hact
        have h1' : IRVRule.countActive activeF = activeF.count true := rfl
        omega

/-- Witness for the amended C4 at a three-ballot set whose IRV run
eliminates three candidates. -/
theorem C4_irv_elimination_order_witness :
    InDomain [[0, 1, 2, 3, 4], [1, 0, 2, 3, 4], [2, 0, 1, 3, 4]] ∧
    ∃ r : RuleResult,
      IRVRule.compute [[0, 1, 2, 3, 4], [1, 0, 2, 3, 4], [2, 0, 1, 3, 4]] = some r ∧
      ∃ eoF, r.aux.lookup "elimination_order" = some (AuxVal.natList eoF) ∧
        eoF.Nodup ∧ eoF.length ≤ 4 ∧ (∀ c ∈ eoF, c < 5) ∧
        (∀ w, r.winner = some w → w < 5 ∧ w ∉ eoF ∧
          (eoF.length = 4 → ∀ c, c < 5 → (c = w ∨ c ∈ eoF))) :=
  ⟨by decide, C4_irv_elimination_order [[0, 1, 2, 3, 4], [1, 0, 2, 3, 4], [2, 0, 1, 3, 4]]
    (by decide)⟩

/-- C6, counterexample: on the empty ballot set IRV terminates by
exhaustion and its aux output holds only the elimination order — the
`counts` key claimed for the exhaustion outcome is absent. -/
theorem C6_counterexample :
    IRVRule.compute []
      = some (⟨none, [("elimination_order", AuxVal.natList [])]⟩ : RuleResult) ∧
    List.lookup "counts"
      ([("elimination_order", AuxVal.natList [])] : List (String × AuxVal)) = none := by
  constructor
  · decide
  · rfl

/-- C6 (amended): whenever IRV terminates with a winner, the aux output
holds the final round's count vector together with the complete
elimination order; on exhaustion it holds only the elimination order. -/
theorem C6_irv_aux_contents (preferences : List (List Nat)) (h : InDomain preferences) :
    ∃ r : RuleResult, IRVRule.compute preferences = some r ∧
      ∃ eoF,
        (∀ w, r.winner = some w →
          ∃ cts, r.aux = [("counts", AuxVal.natList cts),
                          ("elimination_order", AuxVal.natList eoF)]) ∧
        (r.winner = none → r.aux = [("elimination_order", AuxVal.natList eoF)]) := by
  obtain ⟨r, hr, activeF, eoF, -, -, -, -, hFwin, hFnone⟩ := irv_compute_spec preferences h
  refine ⟨r, hr, eoF, ?_, ?_⟩
  · intro w hw
    obtain ⟨-, -, cts, haux⟩ := hFwin w hw
    exact ⟨cts, haux⟩
  · intro hw
    exact (hFnone hw).1

/-- Witness for the amended C6 at a one-ballot set. -/
theorem C6_irv_aux_contents_witness :
    InDomain [[3, 1, 2, 0, 4]] ∧
    ∃ r : RuleResult, IRVRule.compute [[3, 1, 2, 0, 4]] = some r ∧
      ∃ eoF,
        (∀ w, r.winner = some w →
          ∃ cts, r.aux = [("counts", AuxVal.natList cts),
                          ("elimination_order", AuxVal.natList eoF)]) ∧
        (r.winner = none → r.aux = [("elimination_order", AuxVal.natList eoF)]) :=
  ⟨by decide, C6_irv_aux_contents [[3, 1, 2, 0, 4]] (by decide)⟩

/-- C7: the empty ballot set is handled without failure by every rule —
Plurality and Borda return winner 0 (label A) by the degenerate
tie-break, Condorcet returns an absent winner, IRV returns an absent
winner via exhaustion — and on every in-domain ballot set all four
engines produce a result (Plurality, Borda and Condorcet are total
functions of the ballot set by construction; for IRV the failure-free
outcome is the proven `some`). -/
theorem C7_no_rule_fails (preferences : List (List Nat)) (h : InDomain preferences) :
    (PluralityRule.compute []).winner = some 0 ∧
    (BordaRule.compute []).winner = some 0 ∧
    (CondorcetRule.compute []).winner = none ∧
    IRVRule.compute []
      = some (⟨none, [("elimination_order", AuxVal.natList [])]⟩ : RuleResult) ∧
    (∃ rP, PluralityRule.compute preferences = rP) ∧
    (∃ rB, BordaRule.compute preferences = rB) ∧
    (∃ rC, CondorcetRule.compute preferences = rC) ∧
    (∃ rI, IRVRule.compute preferences = some rI) := by
  obtain ⟨rI, hrI, -⟩ := irv_compute_spec preferences h
  exact ⟨by decide, by decide, by decide, by decide,
    ⟨PluralityRule.compute preferences, rfl⟩,
    ⟨BordaRule.compute preferences, rfl⟩,
    ⟨CondorcetRule.compute preferences, rfl⟩,
    ⟨rI, hrI⟩⟩

/-- Witness for C7 at a two-ballot set. -/
theorem C7_no_rule_fails_witness :
    InDomain [[0, 1, 2, 3, 4], [4, 3, 2, 1, 0]] ∧
    ((PluralityRule.compute []).winner = some 0 ∧
    (BordaRule.compute []).winner = some 0 ∧
    (CondorcetRule.compute []).winner = none ∧
    IRVRule.compute []
      = some (⟨none, [("elimination_order", AuxVal.natList [])]⟩ : RuleResult) ∧
    (∃ rP, PluralityRule.compute [[0, 1, 2, 3, 4], [4, 3, 2, 1, 0]] = rP) ∧
    (∃ rB, BordaRule.compute [[0, 1, 2, 3, 4], [4, 3, 2, 1, 0]] = rB) ∧
    (∃ rC, CondorcetRule.compute [[0, 1, 2, 3, 4], [4, 3, 2, 1, 0]] = rC) ∧
    (∃ rI, IRVRule.compute [[0, 1, 2, 3, 4], [4, 3, 2, 1, 0]] = some rI)) :=
  ⟨by decide, C7_no_rule_fails [[0, 1, 2, 3, 4], [4, 3, 2, 1, 0]] (by decide)⟩

/-! ### Progressive tabulator -/

/-- A pointwise-successful `mapM` over `Option` succeeds, preserving
length and mapping each position. -/
lemma mapM_option_spec {β : Type} (f : Nat → Option β) :
    ∀ (l : List Nat), (∀ i ∈ l, (f i).isSome = true) →
      ∃ bs, l.mapM f = some bs ∧ bs.length = l.length ∧
        ∀ k, ∀ hk : k < l.length, ∃ hbk : k < bs.length,
          f (l.get ⟨k, hk⟩) = some (bs.get ⟨k, hbk⟩) := by
  intro l
  induction l with
  | nil =>
    intro _
    exact ⟨[], rfl, rfl, fun k hk => absurd hk (by simp)⟩
  | cons a t ih =>
    intro h
    obtain ⟨b, hb⟩ := Option.isSome_iff_exists.mp (h a (List.mem_cons_self _ _))
    obtain ⟨bs, hbs, hlen, hget⟩ := ih (fun i hi => h i (List.mem_cons_of_mem _ hi))
    refine ⟨b :: bs, ?_, by simp [hlen], ?_⟩
    · rw [List.mapM_cons, hb, hbs]
      rfl
    · intro k hk
      match k with
      | 0 => exact ⟨by simp, by simpa using hb⟩
      | k + 1 =>
        obtain ⟨hbk, hfk⟩ := hget k (by simpa using hk)
        exact ⟨by simpa using hbk, by simpa using hfk⟩

/-- On an in-domain ballot set the winners map is produced (IRV cannot
fail there). -/
lemma compute_winners_isSome {preferences : List (List Nat)} (h : InDomain preferences) :
    (ProgressiveSimulator.compute_winners preferences).isSome = true := by
  obtain ⟨r, hr, -⟩ := irv_compute_spec preferences h
  rw [ProgressiveSimulator.compute_winners, hr]
  rfl

/-- Shape of a successful winners map: one labelled entry per rule, each
winner rendered through the display labels. -/
lemma compute_winners_eq {preferences : List (List Nat)} {w : List (String × Option String)}
    (hw : ProgressiveSimulator.compute_winners preferences = some w) :
    ∃ ir, IRVRule.compute preferences = some ir ∧
      w = [("plurality", (PluralityRule.compute preferences).winner.map
              (fun c => labels.getD c "")),
           ("borda", (BordaRule.compute preferences).winner.map
              (fun c => labels.getD c "")),
           ("condorcet", (CondorcetRule.compute preferences).winner.map
              (fun c => labels.getD c "")),
           ("irv", ir.winner.map (fun c => labels.getD c ""))] := by
  rcases hir : IRVRule.compute preferences with _ | ir
  · rw [ProgressiveSimulator.compute_winners, hir] at hw
    exact absurd hw (by simp)
  · rw [ProgressiveSimulator.compute_winners, hir] at hw
    exact ⟨ir, rfl, by simpa using hw.symm⟩

/-- C8: on every in-domain sampled ballot sequence, the progressive
tabulator emits one record per step; the record of step `k + 1` snapshots
exactly the first `k + 1` sampled ballots (so its step index equals the
ballot count of its snapshot), and its winners map applies all four rule
engines to that entire accumulated ballot set, rendering each winner as
a display label or an absent value. -/
theorem C8_progressive_tabulation (run_id : Nat) (sampled : List (List Nat))
    (h : InDomain sampled) :
    ∃ records, ProgressiveSimulator.run_single run_id sampled = some records ∧
      records.length = sampled.length ∧
      ∀ k, ∀ hk : k < records.length,
        (records.get ⟨k, hk⟩).run_id = run_id ∧
        (records.get ⟨k, hk⟩).step = k + 1 ∧
        (records.get ⟨k, hk⟩).voter_preferences = sampled.take (k + 1) ∧
        (records.get ⟨k, hk⟩).step = (records.get ⟨k, hk⟩).voter_preferences.length ∧
        ∃ ir, IRVRule.compute (sampled.take (k + 1)) = some ir ∧
          (records.get ⟨k, hk⟩).winners =
            [("plurality", (PluralityRule.compute (sampled.take (k + 1))).winner.map
                (fun c => labels.getD c "")),
             ("borda", (BordaRule.compute (sampled.take (k + 1))).winner.map
                (fun c => labels.getD c "")),
             ("condorcet", (CondorcetRule.compute (sampled.take (k + 1))).winner.map
                (fun c => labels.getD c "")),
             ("irv", ir.winner.map (fun c => labels.getD c ""))] := by
  have hsub : ∀ i : Nat, InDomain (sampled.take (i + 1)) :=
    fun i row hrow => h row (List.take_subset _ _ hrow)
  obtain ⟨records, hrec, hlen, hget⟩ := mapM_option_spec (β := StepRecord)
    (fun i => (ProgressiveSimulator.compute_winners (sampled.take (i + 1))).map
      (fun w => ⟨run_id, i + 1, sampled.take (i + 1), w⟩))
    (List.range sampled.length)
    (fun i _ => by rw [Option.isSome_map']; exact compute_winners_isSome (hsub i))
  have hlen2 : records.length = sampled.length := by
    rw [hlen, List.length_range]
  refine ⟨records, hrec, hlen2, ?_⟩
  intro k hk
  have hks : k < sampled.length := by omega
  have hkl : k < (List.range sampled.length).length := by
    rw [List.length_range]
    exact hks
  obtain ⟨hbk, hfk⟩ := hget k hkl
  have hgetr : (List.range sampled.length).get ⟨k, hkl⟩ = k := by
    rw [List.get_eq_getElem, List.getElem_range]
  rw [hgetr, Option.map_eq_some'] at hfk
  obtain ⟨w, hw, hgw⟩ := hfk
  have hrecval : records.get ⟨k, hk⟩
      = (⟨run_id, k + 1, sampled.take (k + 1), w⟩ : StepRecord) := hgw.symm
  obtain ⟨ir, hir, hwval⟩ := compute_winners_eq hw
  rw [hrecval]
  refine ⟨rfl, rfl, rfl, ?_, ir, hir, hwval⟩
  show k + 1 = (sampled.take (k + 1)).length
  rw [List.length_take]
  omega

/-- Witness for C8 with a two-ballot sampled sequence. -/
theorem C8_progressive_tabulation_witness :
    InDomain [[0, 1, 2, 3, 4], [1, 0, 2, 3, 4]] ∧
    ∃ records,
      ProgressiveSimulator.run_single 7 [[0, 1, 2, 3, 4], [1, 0, 2, 3, 4]] = some records ∧
      records.length = [[0, 1, 2, 3, 4], [1, 0, 2, 3, 4]].length ∧
      ∀ k, ∀ hk : k < records.length,
        (records.get ⟨k, hk⟩).run_id = 7 ∧
        (records.get ⟨k, hk⟩).step = k + 1 ∧
        (records.get ⟨k, hk⟩).voter_preferences
          = [[0, 1, 2, 3, 4], [1, 0, 2, 3, 4]].take (k + 1) ∧
        (records.get ⟨k, hk⟩).step = (records.get ⟨k, hk⟩).voter_preferences.length ∧
        ∃ ir, IRVRule.compute ([[0, 1, 2, 3, 4], [1, 0, 2, 3, 4]].take (k + 1)) = some ir ∧
          (records.get ⟨k, hk⟩).winners =
            [("plurality",
                (PluralityRule.compute ([[0, 1, 2, 3, 4], [1, 0, 2, 3, 4]].take (k + 1))).winner.map
                (fun c => labels.getD c "")),
             ("borda",
                (BordaRule.compute ([[0, 1, 2, 3, 4], [1, 0, 2, 3, 4]].take (k + 1))).winner.map
                (fun c => labels.getD c "")),
             ("condorcet",
                (CondorcetRule.compute ([[0, 1, 2, 3, 4], [1, 0, 2, 3, 4]].take (k + 1))).winner.map
                (fun c => labels.getD c "")),
             ("irv", ir.winner.map (fun c => labels.getD c ""))] :=
  ⟨by decide, C8_progressive_tabulation 7 [[0, 1, 2, 3, 4], [1, 0, 2, 3, 4]] (by decide)⟩

end UVPD
